import Mathlib

/-!
Verification of the numerical threshold kernel of `one-sided-ks.c`.

The C code works on IEEE-754 binary64 values through their 64-bit
patterns (`memcpy` between `double` and `uint64_t`).  We embed a double
as its bit pattern, a natural number `p < 2^64`, and give executable
bit-exact semantics for every operation the kernel uses:

* `float_bits` / `bits_float` / `next_k` / `prev_k` are the source's
  sign-magnitude to two's-complement key maps, translated literally
  (the xor with `mask >> 1 = 2^63 - 1` flips the 63 low bits of a
  negative pattern);
* exact values of finite patterns are integers scaled by `2^1075`
  (`fpEval`), so IEEE comparisons and exact sums/products are integer
  arithmetic; rounding to nearest-even is `roundFrac`;
* `dadd`, `dsub`, `dmul`, `ddiv`, `dsqrt` implement the IEEE-754
  operations (round to nearest, ties to even, default exception
  handling: quiet NaN results, signed zeros and infinities);
* `mlog` models the platform libm `log`, which the source only assumes
  to be within 4 ulps (`libm_error_limit`): it rounds a rational
  approximation of the natural logarithm whose error is below `2^-78`
  relative, and follows C99 Annex F for special values
  (`log(±0) = -∞`, `log(x<0) = NaN`, `log(+∞) = +∞`).

All definitions are executable by the kernel (structural recursion with
explicit fuel), so concrete runs of the kernel functions can be checked
with `decide`.
-/

/-- Base-2 logarithm on naturals by binary search on the exponent:
`log2B n = ⌊log₂ n⌋` for `1 ≤ n < 2^8192`.  (Core's `Nat.log2` is defined
by well-founded recursion and does not reduce in the kernel; a fuel-based
version needs recursion too deep for efficient reduction.) -/
def log2B (n : Nat) : Nat :=
  [4096, 2048, 1024, 512, 256, 128, 64, 32, 16, 8, 4, 2, 1].foldl
    (fun e s => if 2^(e+s) ≤ n then e + s else e) 0

/-- Fuel-based integer square root by bisection: assumes `lo^2 ≤ s < hi^2`. -/
def isqrtAux : Nat → Nat → Nat → Nat → Nat
  | 0, lo, _, _ => lo
  | fuel+1, lo, hi, s =>
    if hi ≤ lo + 1 then lo
    else
      let mid := (lo + hi) / 2
      if mid * mid ≤ s then isqrtAux fuel mid hi s else isqrtAux fuel lo mid s

/-- Integer square root, valid for `s < 2^120`. -/
def isqrtN (s : Nat) : Nat := isqrtAux 130 0 (2^60) s

/-- Round `a / d` (with `d > 0`) to the nearest integer, ties to even. -/
def rneNat (a d : Nat) : Nat :=
  let f := a / d
  let r := a % d
  if 2 * r < d then f else if d < 2 * r then f + 1 else if f % 2 = 0 then f else f + 1

/-- Magnitude (sign bit stripped) of a 64-bit pattern. -/
def fpMag (p : Nat) : Nat := p % 2^63

/-- Magnitude of the pattern of `±∞`: exponent field 2047, mantissa 0. -/
def pinfMag : Nat := 2047 * 2^52

/-- A pattern is a NaN iff its magnitude exceeds the infinity magnitude. -/
def fpIsNaN (p : Nat) : Bool := decide (pinfMag < fpMag p)

/-- A pattern is an infinity iff its magnitude equals the infinity magnitude. -/
def fpIsInf (p : Nat) : Bool := decide (fpMag p = pinfMag)

/-- A pattern is finite (zero, subnormal or normal) iff its magnitude is
below the infinity magnitude; this is C's `isfinite`. -/
def fpIsFinite (p : Nat) : Bool := decide (fpMag p < pinfMag)

/-- Absolute value, scaled by `2^1075`, of the finite pattern magnitude `r`:
subnormals (`r < 2^52`) are worth `r·2^-1074`, normals `(2^52+m)·2^(e-1075)`
with `e` the exponent field. -/
def fpN (r : Nat) : Nat :=
  if r / 2^52 = 0 then 2 * r else (2^52 + r % 2^52) * 2^(r / 2^52)

/-- Order-faithful integer semantics of a non-NaN pattern: finite patterns
map to their exact value scaled by `2^1075` (an integer, since the least
positive double is `2^-1074`), and `±∞` map to `±2^2100`, beyond every
finite magnitude.  IEEE comparisons on non-NaN doubles coincide with
integer comparisons of `fpEval`. -/
def fpEval (p : Nat) : Int :=
  (if p < 2^63 then 1 else -1) *
    (if fpMag p = pinfMag then ((2^2100 : Nat) : Int) else (fpN (fpMag p) : Int))

/-- IEEE `<=`: false if either operand is NaN. -/
def dle (a b : Nat) : Bool := !fpIsNaN a && !fpIsNaN b && decide (fpEval a ≤ fpEval b)

/-- IEEE `<`: false if either operand is NaN. -/
def dlt (a b : Nat) : Bool := !fpIsNaN a && !fpIsNaN b && decide (fpEval a < fpEval b)

/-- IEEE `>=`. -/
def dge (a b : Nat) : Bool := dle b a

/-- IEEE `>`. -/
def dgt (a b : Nat) : Bool := dlt b a

/-- IEEE `==`: false if either operand is NaN; `+0 == -0`. -/
def deq (a b : Nat) : Bool := !fpIsNaN a && !fpIsNaN b && decide (fpEval a = fpEval b)

/-- Source `float_bits`: map the raw IEEE pattern to a key that is totally
ordered as a two's-complement 64-bit integer.  If the sign bit is set, the
arithmetic shift produces an all-ones mask and `mask >> 1 = 2^63 - 1` flips
the 63 low bits. -/
def float_bits (b : Nat) : Nat := if b < 2^63 then b else b ^^^ (2^63 - 1)

/-- Source `bits_float`: inverse of `float_bits` (the same involution). -/
def bits_float (k : Nat) : Nat := if k < 2^63 then k else k ^^^ (2^63 - 1)

/-- Source `next_k`: step `delta` keys upward (uint64 wrap-around). -/
def next_k (x delta : Nat) : Nat := bits_float ((float_bits x + delta) % 2^64)

/-- Source `prev_k`: step `delta` keys downward (uint64 wrap-around). -/
def prev_k (x delta : Nat) : Nat := bits_float ((float_bits x + (2^64 - delta % 2^64)) % 2^64)

/-- Source `next`: the adjacent pattern one key up. -/
def fpnext (x : Nat) : Nat := next_k x 1

/-- Source `prev`: the adjacent pattern one key down. -/
def fpprev (x : Nat) : Nat := prev_k x 1

/-- Decide whether the positive rational `n / d` is below `2^t`. -/
def cmpLtPow2 (n d : Nat) (t : Int) : Bool :=
  if 0 ≤ t then decide (n < d * 2^t.toNat) else decide (n * 2^(-t).toNat < d)

/-- Floor base-2 logarithm of the positive rational `n / d` (for
`n, d < 2^8192`): a first guess from `log2B` is corrected by comparison. -/
def ilogFrac (n d : Nat) : Int :=
  let g : Int := (log2B n : Int) - (log2B d : Int)
  if cmpLtPow2 n d g then g - 1 else if cmpLtPow2 n d (g + 1) then g else g + 1

/-- Represent `(n / d) · 2^t` as a fraction of naturals. -/
def scaleNum (n d : Nat) (t : Int) : Nat × Nat :=
  if 0 ≤ t then (n * 2^t.toNat, d) else (n, d * 2^(-t).toNat)

/-- Round the positive rational `n / d` to the nearest binary64
(ties to even), returning the magnitude of the resulting pattern
(`pinfMag` on overflow, `0` on underflow to zero). -/
def roundPosFrac (n d : Nat) : Nat :=
  let e := ilogFrac n d
  if 1024 ≤ e then pinfMag
  else if e < -1022 then
    let s := scaleNum n d 1074
    rneNat s.1 s.2
  else
    let s := scaleNum n d (52 - e)
    let k := rneNat s.1 s.2
    if k = 2^53 then (if e = 1023 then pinfMag else (e + 1024).toNat * 2^52)
    else (e + 1023).toNat * 2^52 + (k - 2^52)

/-- Round the rational `num / den` (`den > 0`) to the nearest binary64
pattern; an exact zero rounds to `+0`. -/
def roundFrac (num : Int) (den : Nat) : Nat :=
  if num = 0 then 0
  else if 0 < num then roundPosFrac num.toNat den
  else 2^63 + roundPosFrac (-num).toNat den

/-- C's implicit `uint64_t` to `double` conversion (round to nearest even). -/
def u64_to_double (n : Nat) : Nat := roundFrac (n : Int) 1

/-- Pattern of the canonical quiet NaN `0x7FF8000000000000`. -/
def qNaNPat : Nat := pinfMag + 2^51

/-- Pattern of `+∞` (C's `HUGE_VAL`). -/
def hugePat : Nat := pinfMag

/-- Pattern of `-∞`. -/
def negHugePat : Nat := 2^63 + pinfMag

/-- Pattern of `DBL_MAX` (largest finite double). -/
def dblMaxPat : Nat := pinfMag - 1

/-- IEEE negation: flip the sign bit. -/
def dneg (a : Nat) : Nat := if a < 2^63 then a + 2^63 else a - 2^63

/-- IEEE binary64 addition, round to nearest even.  The exact sum of two
finite operands is an integer at scale `2^1075`; an exact zero sum is `-0`
only when both operands are negative (round-to-nearest rule). -/
def dadd (a b : Nat) : Nat :=
  if fpIsNaN a || fpIsNaN b then qNaNPat
  else if fpIsInf a then (if fpIsInf b then (if a = b then a else qNaNPat) else a)
  else if fpIsInf b then b
  else
    let s : Int := fpEval a + fpEval b
    if s = 0 then (if 2^63 ≤ a ∧ 2^63 ≤ b then 2^63 else 0)
    else roundFrac s (2^1075)

/-- IEEE subtraction: `a - b = a + (-b)` exactly (including specials). -/
def dsub (a b : Nat) : Nat := dadd a (dneg b)

/-- IEEE binary64 multiplication, round to nearest even.  The exact product
of finite operands is an integer at scale `2^2150`. -/
def dmul (a b : Nat) : Nat :=
  if fpIsNaN a || fpIsNaN b then qNaNPat
  else
    let sgn : Nat := if decide (a < 2^63) = decide (b < 2^63) then 0 else 2^63
    if fpIsInf a || fpIsInf b then
      (if fpEval a = 0 ∨ fpEval b = 0 then qNaNPat else sgn + pinfMag)
    else
      let pr : Int := fpEval a * fpEval b
      if pr = 0 then sgn else roundFrac pr (2^2150)

/-- IEEE binary64 division, round to nearest even.  The exact quotient of
nonzero finite operands is the ratio of their scaled values. -/
def ddiv (a b : Nat) : Nat :=
  if fpIsNaN a || fpIsNaN b then qNaNPat
  else
    let sgn : Nat := if decide (a < 2^63) = decide (b < 2^63) then 0 else 2^63
    if fpIsInf a then (if fpIsInf b then qNaNPat else sgn + pinfMag)
    else if fpIsInf b then sgn
    else if fpEval b = 0 then (if fpEval a = 0 then qNaNPat else sgn + pinfMag)
    else if fpEval a = 0 then sgn
    else roundFrac (if 0 < fpEval a * fpEval b then ((fpEval a).natAbs : Int)
                    else -((fpEval a).natAbs : Int)) (fpEval b).natAbs

/-- IEEE binary64 square root (correctly rounded, as the source assumes):
`sqrt(±0) = ±0`, `sqrt(+∞) = +∞`, negative arguments give NaN.  A positive
finite argument `M·2^(e-L)` with `M/2^L ∈ [1,2)` has its root found by
integer square root of the value scaled into `[2^104, 2^106)`. -/
def dsqrt (a : Nat) : Nat :=
  if fpIsNaN a then qNaNPat
  else if a = pinfMag then pinfMag
  else if fpEval a = 0 then a
  else if 2^63 ≤ a then qNaNPat
  else
    let efield : Nat := a / 2^52
    let M := if efield = 0 then a else 2^52 + a % 2^52
    let L := if efield = 0 then log2B a else 52
    let e : Int := if efield = 0 then (L : Int) - 1074 else (efield : Int) - 1023
    let f : Int := Int.fdiv e 2
    let t : Nat := (e - (L : Int) + 104 - 2*f).toNat
    let s := M * 2^t
    let k0 := isqrtN s
    let k := if 4*s < (2*k0+1)^2 then k0
             else if (2*k0+1)^2 < 4*s then k0 + 1
             else (if k0 % 2 = 0 then k0 else k0 + 1)
    if k = 2^53 then (f + 1024).toNat * 2^52 else (f + 1023).toNat * 2^52 + (k - 2^52)

/-- Numerator of `ln 2` to 36 decimal digits (denominator `10^36`). -/
def ln2Num : Nat := 693147180559945309417232121458176568

/-- Denominator of the `ln 2` approximation. -/
def ln2Den : Nat := 10^36

/-- Partial sum `2·Σ_{k<25} x^(2k+1)/(2k+1)` of the `atanh` series for
`x = xn/xd < 1/3`, over the common denominator `xd^49 · Π(2k+1)`; the
truncation error is below `2^-78`. -/
def mlogSeries (xn xd : Nat) : Nat × Nat :=
  let P := (List.range 25).foldl (fun acc k => acc * (2*k+1)) 1
  let D := xd^49 * P
  let num := ((List.range 25).foldl (fun (st : Nat × Nat × Nat) k =>
      (st.1 + st.2.1 * st.2.2 * (P / (2*k+1)), st.2.1 * xn^2, st.2.2 / xd^2))
      (0, xn, xd^48)).1
  (2 * num, D)

/-- Modelled from the spec: the platform libm natural logarithm, which the
source only assumes to be within `libm_error_limit = 4` ulps of the exact
value.  This model is deterministic and essentially correctly rounded: the
argument `M/2^L · 2^e` (with `M/2^L ∈ [1,2)`) is mapped through the `atanh`
series at `(M-2^L)/(M+2^L) ∈ [0,1/3)` plus `e · ln 2`, accurate to below
`2^-78`, then rounded to nearest.  Special values follow C99 Annex F:
`log(±0) = -∞`, `log(x) = NaN` for `x < 0` (including `-∞`),
`log(+∞) = +∞`, `log(NaN) = NaN`. -/
def mlog (a : Nat) : Nat :=
  if fpIsNaN a then qNaNPat
  else if a = pinfMag then pinfMag
  else if fpEval a = 0 then negHugePat
  else if 2^63 ≤ a then qNaNPat
  else
    let efield : Nat := a / 2^52
    let M := if efield = 0 then a else 2^52 + a % 2^52
    let L := if efield = 0 then log2B a else 52
    let e : Int := if efield = 0 then (L : Int) - 1074 else (efield : Int) - 1023
    let s := mlogSeries (M - 2^L) (M + 2^L)
    roundFrac ((s.1 : Int) * ln2Den + e * ln2Num * s.2) (s.2 * ln2Den)

/-- Source constant: assume libm `log` is off by less than 4 ulps. -/
def libm_error_limit : Nat := 4

/-- Source `log_up`: an upper bound on the exact logarithm. -/
def log_up (x : Nat) : Nat := next_k (mlog x) libm_error_limit

/-- Source `log_down`: a lower bound on the exact logarithm. -/
def log_down (x : Nat) : Nat := prev_k (mlog x) libm_error_limit

/-- Source `sqrt_up` (sqrt is correctly rounded). -/
def sqrt_up (x : Nat) : Nat := fpnext (dsqrt x)

/-- Source `sqrt_down`. -/
def sqrt_down (x : Nat) : Nat := fpprev (dsqrt x)

/-- Pattern of the literal `1.0`. -/
def onePat : Nat := roundFrac 1 1

/-- Pattern of the literal `2.0`. -/
def twoPat : Nat := roundFrac 2 1

/-- Pattern of the literal `-1` (converted to double). -/
def negOnePat : Nat := roundFrac (-1) 1

/-- Source constant `one_sided_ks_pair_le = 0`. -/
def one_sided_ks_pair_le : Nat := roundFrac 0 1

/-- Source constant `one_sided_ks_pair_eq = -0.6931471805599454`
(the compiler rounds the decimal literal to the nearest binary64). -/
def one_sided_ks_pair_eq : Nat := roundFrac (-6931471805599454) (10^16)

/-- Source constant `one_sided_ks_fixed_le = -1.039720770839918`. -/
def one_sided_ks_fixed_le : Nat := roundFrac (-1039720770839918) (10^15)

/-- Source constant `one_sided_ks_fixed_eq = -1.7328679513998635`. -/
def one_sided_ks_fixed_eq : Nat := roundFrac (-17328679513998635) (10^16)

/-- Source constant `one_sided_ks_class = -1.7328679513998635`. -/
def one_sided_ks_class : Nat := roundFrac (-17328679513998635) (10^16)

/-- Source `one_sided_ks_check_constants`: compare the raw bit pattern of
each exported constant with its hard-coded expectation (the C expectations
are negative `int64` literals cast to `uint64`, i.e. `2^64 + literal`);
bit `i` of the result is set on the `i`-th mismatch. -/
def one_sided_ks_check_constants : Nat :=
  (if one_sided_ks_pair_le = 0 then 0 else 1)
  + (if one_sided_ks_pair_eq = 2^64 - 4618953502541334032 then 0 else 2)
  + (if one_sided_ks_fixed_le = 2^64 - 4616010731606004876 then 0 else 4)
  + (if one_sided_ks_fixed_eq = 2^64 - 4612889074221922196 then 0 else 8)
  + (if one_sided_ks_class = 2^64 - 4612889074221922196 then 0 else 16)

/-- Source `threshold_up`: `f(x)/x` with `f(x) = ((x+1)(2 log x + log b))^(1/2)`,
every step rounded upward. -/
def threshold_up (x log_b : Nat) : Nat :=
  let xp1 := dadd x onePat
  let f_x2 := fpnext (dmul xp1 (fpnext (dadd (dmul twoPat (log_up x)) log_b)))
  fpnext (ddiv (sqrt_up f_x2) x)

/-- Source `threshold_down`: the dual, every step rounded downward. -/
def threshold_down (x log_b : Nat) : Nat :=
  let xp1 := dadd x onePat
  let f_x2 := fpprev (dmul xp1 (fpprev (dadd (dmul twoPat (log_down x)) log_b)))
  fpprev (ddiv (sqrt_down f_x2) x)

/-- Source `log_b_up`: `log b = -log(eps) - log(min_count - 1)`, rounded up;
`min_count - 1.0` converts `min_count` to double first. -/
def log_b_up (min_count log_eps : Nat) : Nat :=
  fpnext (dsub (dneg (log_down (dsub (u64_to_double min_count) onePat))) log_eps)

/-- Source `log_b_down`. -/
def log_b_down (min_count log_eps : Nat) : Nat :=
  fpprev (dsub (dneg (log_up (dsub (u64_to_double min_count) onePat))) log_eps)

/-- Source `one_sided_ks_threshold_fast`: pre-warmup returns `+∞`,
degenerate confidence returns `-∞`, otherwise the rounded-up threshold. -/
def one_sided_ks_threshold_fast (n min_count log_eps : Nat) : Nat :=
  if n < min_count then hugePat
  else if dge log_eps 0 then negHugePat
  else threshold_up (u64_to_double n) (log_b_up min_count log_eps)

/-- Source `one_sided_ks_min_count_valid`: `min_count` is valid for
`log_eps` iff `prev(log_eps + (min_count - 1)) ≥ log_up(min_count + 1.0)`
(conservatively rounded); `min_count ≤ 2` is never valid, and any
`min_count` is declared valid when `log_eps ≥ 0`. -/
def one_sided_ks_min_count_valid (min_count log_eps : Nat) : Nat :=
  if dge log_eps 0 then 1
  else if min_count ≤ 2 then 0
  else if dge (fpprev (dadd log_eps (u64_to_double (min_count - 1))))
              (log_up (dadd (u64_to_double min_count) onePat)) then 1 else 0

/-- Galloping phase of `one_sided_ks_find_min_count`: starting from `i`,
find the first `i < 64` with `2^i` valid, or stop at 64.  Fuel-based
structural recursion; `gallopAux lε 64 1` mirrors the C `for` loop. -/
def gallopAux (log_eps : Nat) : Nat → Nat → Nat
  | 0, i => i
  | fuel+1, i =>
    if 64 ≤ i then i
    else if one_sided_ks_min_count_valid (2^i) log_eps ≠ 0 then i
    else gallopAux log_eps fuel (i+1)

/-- Bisection phase of `one_sided_ks_find_min_count`, maintaining the C
invariant that `low` is invalid and `high` valid; the fuel (64 in all
uses) dominates the iteration count of the C `while` loop since the gap
at least halves each step. -/
def bisectAux (log_eps : Nat) : Nat → Nat → Nat → Nat
  | 0, _, high => high
  | fuel+1, low, high =>
    if low + 1 < high then
      let pivot := low + (high - low) / 2
      if one_sided_ks_min_count_valid pivot log_eps ≠ 0 then bisectAux log_eps fuel low pivot
      else bisectAux log_eps fuel pivot high
    else high

/-- Source `one_sided_ks_find_min_count`: galloping search then bisection;
returns `0` when `log_eps ≥ 0`, `2` if the first probe validates, and
`SIZE_MAX = 2^64 - 1` when no probed power of two validates. -/
def one_sided_ks_find_min_count (log_eps : Nat) : Nat :=
  if dge log_eps 0 then 0
  else
    let i := gallopAux log_eps 64 1
    if i = 1 then 2
    else if 64 ≤ i then 2^64 - 1
    else bisectAux log_eps 64 (2^(i-1)) (2^i)

/-- Source `one_sided_ks_threshold` (safe entry point): an invalid
`min_count` is silently replaced by `one_sided_ks_find_min_count`. -/
def one_sided_ks_threshold (n min_count log_eps : Nat) : Nat :=
  one_sided_ks_threshold_fast n
    (if one_sided_ks_min_count_valid min_count log_eps = 0
     then one_sided_ks_find_min_count log_eps else min_count) log_eps

/-- Loop of `invert_threshold`: 64 bisection steps in float-key space
(midpoint through `float_bits`, with uint64 wrap-around semantics);
an exact hit returns the pivot, otherwise the `up` flag selects the
bracket to return. -/
def invertLoop (thr : Nat → Nat → Nat) (log_b target : Nat) (up : Bool) :
    Nat → Nat → Nat → Nat
  | 0, low, high => if up then high else low
  | fuel+1, low, high =>
    let lb := float_bits low
    let hb := float_bits high
    let pivot := bits_float ((lb + ((hb + 2^64 - lb) % 2^64) / 2) % 2^64)
    let fx := thr pivot log_b
    if deq fx target then pivot
    else if dlt fx target then invertLoop thr log_b target up fuel low pivot
    else invertLoop thr log_b target up fuel pivot high

/-- Source `invert_threshold`: find where the monotone threshold crosses
`target`, between `min_count` (converted to double) and `DBL_MAX`. -/
def invert_threshold (min_count target : Nat) (up : Bool)
    (thr : Nat → Nat → Nat) (log_b : Nat) : Nat :=
  if dle (thr (u64_to_double min_count) log_b) target then u64_to_double min_count
  else if dge (thr dblMaxPat log_b) target then dblMaxPat
  else invertLoop thr log_b target up 64 (u64_to_double min_count) dblMaxPat

/-- Source `invert_threshold_up`: over-approximate inverse. -/
def invert_threshold_up (target min_count log_eps : Nat) : Nat :=
  invert_threshold min_count target true threshold_up (log_b_up min_count log_eps)

/-- Source `invert_threshold_down`: under-approximate inverse. -/
def invert_threshold_down (target min_count log_eps : Nat) : Nat :=
  invert_threshold min_count target false threshold_down (log_b_down min_count log_eps)

/-- Source `one_sided_ks_expected_iter`: sentinels first (`0.0` when
`log_eps ≥ 0`, `DBL_MAX` for degenerate `min_count`/`delta`, `-1` for an
invalid `min_count`), then the bound `g_up(δ - m/g_down(δ))` with `δ`
clamped strictly below half the first threshold. -/
def one_sided_ks_expected_iter (min_count log_eps delta : Nat) : Nat :=
  if dge log_eps 0 then 0
  else if min_count = 0 ∨ dle delta 0 then dblMaxPat
  else if one_sided_ks_min_count_valid min_count log_eps = 0 then negOnePat
  else
    let first_threshold := one_sided_ks_threshold min_count min_count log_eps
    let delta2 := if dgt delta (ddiv first_threshold twoPat)
                  then fpprev (ddiv first_threshold twoPat) else delta
    let g_delta := invert_threshold_down delta2 min_count log_eps
    let inner := dsub delta2 (fpnext (ddiv (dmul onePat (u64_to_double min_count)) g_delta))
    invert_threshold_up (fpprev inner) min_count log_eps

/-- Signed (two's-complement int64) reading of the `float_bits` key: this is
the total order in which consecutive keys step through adjacent doubles. -/
def skey (p : Nat) : Int :=
  if float_bits p < 2^63 then (float_bits p : Int) else (float_bits p : Int) - 2^64

set_option exponentiation.threshold 10000
set_option maxRecDepth 100000

/-- Binary decomposition of natural xor through division and parity. -/
theorem xor_decomp (x y : Nat) : x ^^^ y = 2 * (x / 2 ^^^ y / 2) + (x + y) % 2 := by
  have h1 : (x ^^^ y) / 2 = x / 2 ^^^ y / 2 := Nat.xor_div_two
  have h2 : (x ^^^ y) % 2 = (x + y) % 2 := Nat.xor_mod_two_eq
  omega

/-- Xor with the all-ones mask of width `n` complements an `n`-bit number. -/
theorem xor_compl : ∀ (n r : Nat), r < 2^n → r ^^^ (2^n - 1) = 2^n - 1 - r := by
  intro n
  induction n with
  | zero =>
    intro r h
    have : r = 0 := by omega
    subst this
    decide
  | succ n ih =>
    intro r h
    have hpow : (2:Nat)^(n+1) = 2 * 2^n := by rw [pow_succ]; ring
    have hone : 1 ≤ (2:Nat)^n := Nat.one_le_two_pow
    have hd := xor_decomp r (2^(n+1) - 1)
    have hq : (2^(n+1) - 1) / 2 = 2^n - 1 := by omega
    rw [hq] at hd
    rw [ih (r / 2) (by omega)] at hd
    omega

/-- Xor below the top bit of `2^n + r` leaves the top bit alone. -/
theorem xor_high : ∀ (n r s : Nat), r < 2^n → s < 2^n →
    (2^n + r) ^^^ s = 2^n + (r ^^^ s) := by
  intro n
  induction n with
  | zero =>
    intro r s hr hs
    have hr0 : r = 0 := by omega
    have hs0 : s = 0 := by omega
    subst hr0; subst hs0; decide
  | succ n ih =>
    intro r s hr hs
    have hpow : (2:Nat)^(n+1) = 2 * 2^n := by rw [pow_succ]; ring
    have hone : 1 ≤ (2:Nat)^n := Nat.one_le_two_pow
    have hd := xor_decomp (2^(n+1) + r) s
    have hd2 := xor_decomp r s
    have hq : (2^(n+1) + r) / 2 = 2^n + r / 2 := by omega
    rw [hq] at hd
    rw [ih (r / 2) (s / 2) (by omega) (by omega)] at hd
    omega

/-- Arithmetic characterization of `float_bits`: a negative pattern's 63 low
bits are complemented. -/
theorem float_bits_eq {b : Nat} (hb : b < 2^64) :
    float_bits b = if b < 2^63 then b else 3 * 2^63 - 1 - b := by
  unfold float_bits
  split
  · rfl
  · rename_i h
    have h2 : 2^63 + (b - 2^63) = b := by omega
    calc b ^^^ (2^63 - 1) = (2^63 + (b - 2^63)) ^^^ (2^63 - 1) := by rw [h2]
      _ = 2^63 + ((b - 2^63) ^^^ (2^63 - 1)) := xor_high 63 _ _ (by omega) (by omega)
      _ = 2^63 + (2^63 - 1 - (b - 2^63)) := by rw [xor_compl 63 _ (by omega)]
      _ = 3 * 2^63 - 1 - b := by omega

/-- The two key maps are the same involution. -/
theorem bits_float_eq_float_bits : ∀ k, bits_float k = float_bits k := fun _ => rfl

/-- Arithmetic characterization of `bits_float`. -/
theorem bits_float_eq {k : Nat} (hk : k < 2^64) :
    bits_float k = if k < 2^63 then k else 3 * 2^63 - 1 - k := by
  rw [bits_float_eq_float_bits]; exact float_bits_eq hk

/-- The scaled magnitude is zero only at the zero pattern. -/
theorem fpN_eq_zero {r : Nat} : fpN r = 0 ↔ r = 0 := by
  unfold fpN
  split
  · omega
  · rename_i h
    have h1 : 1 ≤ (2:Nat)^(r / 2^52) := Nat.one_le_two_pow
    have h2 : (0:Nat) < (2^52 + r % 2^52) * 2^(r / 2^52) := by positivity
    constructor
    · intro hz; omega
    · intro hz; subst hz; simp at h

/-- The scaled magnitude is strictly monotone in the pattern magnitude. -/
theorem fpN_lt {r s : Nat} (h : r < s) : fpN r < fpN s := by
  unfold fpN
  rcases Nat.eq_zero_or_pos (r / 2^52) with hr0 | hrpos
  · rcases Nat.eq_zero_or_pos (s / 2^52) with hs0 | hspos
    · rw [if_pos hr0, if_pos hs0]
      omega
    · rw [if_pos hr0, if_neg (by omega)]
      have hrlt : r < 2^52 := by omega
      have h1 : (2:Nat)^1 ≤ 2^(s / 2^52) := Nat.pow_le_pow_right (by norm_num) (by omega)
      have h2 : 2^52 * 2 ≤ (2^52 + s % 2^52) * 2^(s / 2^52) := by
        calc 2^52 * 2 = 2^52 * 2^1 := by norm_num
          _ ≤ (2^52 + s % 2^52) * 2^(s / 2^52) :=
            Nat.mul_le_mul (by omega) h1
      omega
  · rcases Nat.eq_zero_or_pos (s / 2^52) with hs0 | hspos
    · exfalso
      omega
    · rw [if_neg (by omega), if_neg (by omega)]
      have hle : r / 2^52 ≤ s / 2^52 := Nat.div_le_div_right h.le
      rcases Nat.lt_or_ge (r / 2^52) (s / 2^52) with hlt | hge
      · have h1 : (2^52 + r % 2^52) * 2^(r / 2^52) < 2^53 * 2^(r / 2^52) :=
          mul_lt_mul_of_pos_right (by omega) (pow_pos (by norm_num) _)
        have h2 : (2:Nat)^53 * 2^(r / 2^52) = 2^(53 + r / 2^52) := by
          rw [← pow_add]
        have h3 : (2:Nat)^(53 + r / 2^52) ≤ 2^(52 + s / 2^52) :=
          Nat.pow_le_pow_right (by norm_num) (by omega)
        have h4 : (2:Nat)^(52 + s / 2^52) = 2^52 * 2^(s / 2^52) := by
          rw [← pow_add]
        have h5 : (2:Nat)^52 * 2^(s / 2^52) ≤ (2^52 + s % 2^52) * 2^(s / 2^52) :=
          Nat.mul_le_mul_right _ (by omega)
        omega
      · have heq : r / 2^52 = s / 2^52 := by omega
        rw [heq]
        exact mul_lt_mul_of_pos_right (by omega) (pow_pos (by norm_num) _)

/-- Every finite-or-infinite magnitude has scaled value below the `±∞`
sentinel `2^2100`. -/
theorem fpN_bound {r : Nat} (h : r ≤ pinfMag) : fpN r < 2^2100 := by
  unfold fpN pinfMag at *
  split
  · have h1 : r < 2^52 := by omega
    have h2 : (2:Nat)^52 < 2^2100 := Nat.pow_lt_pow_right (by norm_num) (by norm_num)
    omega
  · have he : r / 2^52 ≤ 2047 := by omega
    have h1 : (2^52 + r % 2^52) * 2^(r / 2^52) ≤ (2^53 - 1) * 2^2047 :=
      Nat.mul_le_mul (by omega) (Nat.pow_le_pow_right (by norm_num) he)
    omega

/-- Signed-key characterization: nonnegative patterns keep their value,
negative patterns map to `-1 - magnitude`. -/
theorem skey_eq {p : Nat} (hp : p < 2^64) :
    skey p = if p < 2^63 then (p : Int) else -1 - ((p : Int) - 2^63) := by
  unfold skey
  rw [float_bits_eq hp]
  rcases Nat.lt_or_ge p (2^63) with h | h
  · rw [if_pos h, if_pos h, if_pos h]
  · have h1 : ¬ (p < 2^63) := by omega
    have h2 : ¬ (3 * 2^63 - 1 - p < 2^63) := by omega
    rw [if_neg h1, if_neg h2, if_neg h1]
    have hcast : ((3 * 2^63 - 1 - p : Nat) : Int) = 3 * 2^63 - 1 - (p : Int) := by
      omega
    rw [hcast]
    omega

/-- The signed key is injective on 64-bit patterns. -/
theorem skey_inj {p q : Nat} (hp : p < 2^64) (hq : q < 2^64)
    (h : skey p = skey q) : p = q := by
  rw [skey_eq hp, skey_eq hq] at h
  rcases Nat.lt_or_ge p (2^63) with h1 | h1 <;>
    rcases Nat.lt_or_ge q (2^63) with h2 | h2 <;>
      simp only [if_pos, if_neg, h1, h2, not_lt.mpr] at h <;> omega

/-- The magnitude component of `fpEval` is nonnegative. -/
theorem fpEval_mag_nonneg (r : Nat) :
    (0:Int) ≤ (if r = pinfMag then ((2^2100 : Nat) : Int) else (fpN r : Int)) := by
  split
  · exact Int.natCast_nonneg _
  · exact Int.natCast_nonneg _

/-- The magnitude component of `fpEval` is positive off the zero pattern. -/
theorem fpEval_mag_pos {r : Nat} (hr : r ≠ 0) :
    (0:Int) < (if r = pinfMag then ((2^2100 : Nat) : Int) else (fpN r : Int)) := by
  split
  · have h9 : (0:Nat) < 2^2100 := pow_pos (by norm_num) _
    omega
  · have h9 : 0 < fpN r := Nat.pos_of_ne_zero (fun hz => hr (fpN_eq_zero.mp hz))
    omega

/-- Key order implies value order, except that `-0` and `+0` share the
value `0` while their keys are adjacent across the wrap-around. -/
theorem eval_lt_of_skey_lt {p q : Nat} (hp : p < 2^64) (hq : q < 2^64)
    (hnp : fpIsNaN p = false) (hnq : fpIsNaN q = false) (h : skey p < skey q) :
    fpEval p < fpEval q ∨ (p = 2^63 ∧ q = 0) := by
  have hmp : fpMag p ≤ pinfMag := by
    unfold fpIsNaN at hnp
    simpa using hnp
  have hmq : fpMag q ≤ pinfMag := by
    unfold fpIsNaN at hnq
    simpa using hnq
  have hpinf : pinfMag < 2^63 := by unfold pinfMag; omega
  rw [skey_eq hp, skey_eq hq] at h
  rcases Nat.lt_or_ge p (2^63) with h1 | h1 <;> rcases Nat.lt_or_ge q (2^63) with h2 | h2
  · -- both nonnegative: p < q
    rw [if_pos h1, if_pos h2] at h
    have hpq : p < q := by omega
    left
    have hmagp : fpMag p = p := by unfold fpMag; omega
    have hmagq : fpMag q = q := by unfold fpMag; omega
    unfold fpEval
    rw [if_pos h1, if_pos h2, hmagp, hmagq, one_mul, one_mul]
    rcases eq_or_ne q pinfMag with hqi | hqi
    · rw [if_pos hqi, if_neg (by omega)]
      have := fpN_bound (r := p) (by omega)
      omega
    · rw [if_neg (by omega), if_neg hqi]
      have := fpN_lt hpq
      omega
  · -- p nonnegative, q negative: impossible
    rw [if_pos h1, if_neg (by omega)] at h
    omega
  · -- p negative, q nonnegative
    have hmagp : fpMag p = p - 2^63 := by unfold fpMag; omega
    have hmagq : fpMag q = q := by unfold fpMag; omega
    by_cases hzz : p = 2^63 ∧ q = 0
    · right; exact hzz
    · left
      unfold fpEval
      rw [if_neg (show ¬ p < 2^63 by omega), if_pos h2, hmagp, hmagq]
      have hB := fpEval_mag_nonneg q
      rcases eq_or_ne p (2^63) with hp0 | hp0
      · have hq0 : q ≠ 0 := fun hcq => hzz ⟨hp0, hcq⟩
        have hBpos := fpEval_mag_pos hq0
        have hzp : p - 2^63 = 0 := by omega
        rw [hzp]
        have hXp : (if (0:Nat) = pinfMag then ((2^2100 : Nat) : Int) else (fpN 0 : Int)) = 0 := by
          rw [if_neg (show (0:Nat) ≠ pinfMag by decide)]
          rw [fpN_eq_zero.mpr rfl]
          rfl
        rw [hXp]
        omega
      · have hmp0 : p - 2^63 ≠ 0 := by omega
        have hApos := fpEval_mag_pos hmp0
        omega
  · -- both negative: magnitudes reversed
    rw [if_neg (show ¬ p < 2^63 by omega), if_neg (show ¬ q < 2^63 by omega)] at h
    have hrp : q - 2^63 < p - 2^63 := by omega
    left
    have hmagp : fpMag p = p - 2^63 := by unfold fpMag; omega
    have hmagq : fpMag q = q - 2^63 := by unfold fpMag; omega
    unfold fpEval
    rw [if_neg (show ¬ p < 2^63 by omega), if_neg (show ¬ q < 2^63 by omega), hmagp, hmagq]
    rcases eq_or_ne (p - 2^63) pinfMag with hpi | hpi
    · rw [if_pos hpi, if_neg (show ¬ q - 2^63 = pinfMag by omega)]
      have := fpN_bound (r := q - 2^63) (by omega)
      omega
    · rw [if_neg hpi, if_neg (show ¬ q - 2^63 = pinfMag by omega)]
      have := fpN_lt hrp
      omega

/-- Value order implies signed-key order on non-NaN patterns. -/
theorem skey_lt_of_eval_lt {p q : Nat} (hp : p < 2^64) (hq : q < 2^64)
    (hnp : fpIsNaN p = false) (hnq : fpIsNaN q = false)
    (h : fpEval p < fpEval q) : skey p < skey q := by
  rcases lt_trichotomy (skey p) (skey q) with hlt | heq | hgt
  · exact hlt
  · rw [skey_inj hp hq heq] at h
    exact absurd h (lt_irrefl _)
  · rcases eval_lt_of_skey_lt hq hp hnq hnp hgt with h2 | h2
    · omega
    · obtain ⟨hq0, hp0⟩ := h2
      subst hq0
      subst hp0
      have e1 : fpEval 0 = 0 := by decide
      have e2 : fpEval (2^63) = 0 := by decide
      omega

/-- A finite pattern is not NaN. -/
theorem not_nan_of_finite {p : Nat} (h : fpIsFinite p = true) : fpIsNaN p = false := by
  unfold fpIsFinite at h
  unfold fpIsNaN
  simp only [decide_eq_true_eq] at h
  simp only [decide_eq_false_iff_not]
  omega

/-- Stepping one key up from a finite pattern other than `-0` lands on the
next pattern: one more in signed-key order and never a NaN. -/
theorem fpnext_spec {p : Nat} (hp : p < 2^64) (hfin : fpIsFinite p = true)
    (hnz : p ≠ 2^63) :
    fpnext p < 2^64 ∧ fpIsNaN (fpnext p) = false ∧ skey (fpnext p) = skey p + 1 := by
  have hmag : fpMag p < pinfMag := by
    unfold fpIsFinite at hfin
    simpa using hfin
  have hpinf : pinfMag < 2^63 := by unfold pinfMag; omega
  unfold fpnext next_k
  rcases Nat.lt_or_ge p (2^63) with h1 | h1
  · have hmagp : fpMag p = p := by unfold fpMag; omega
    have hfb : float_bits p = p := by rw [float_bits_eq hp, if_pos h1]
    rw [hfb]
    have hmod : (p + 1) % 2^64 = p + 1 := Nat.mod_eq_of_lt (by omega)
    rw [hmod]
    have hbf : bits_float (p + 1) = p + 1 := by
      rw [bits_float_eq (by omega), if_pos (by omega)]
    rw [hbf]
    refine ⟨by omega, ?_, ?_⟩
    · unfold fpIsNaN fpMag
      simp only [decide_eq_false_iff_not]
      omega
    · rw [skey_eq (by omega : p + 1 < 2^64), skey_eq hp, if_pos (by omega), if_pos h1]
      omega
  · have hmagp : fpMag p = p - 2^63 := by unfold fpMag; omega
    have hr1 : 1 ≤ p - 2^63 := by omega
    have hfb : float_bits p = 3 * 2^63 - 1 - p := by
      rw [float_bits_eq hp, if_neg (by omega)]
    rw [hfb]
    have hmod' : (3 * 2^63 - 1 - p + 1) = 3 * 2^63 - p := by omega
    rw [hmod']
    have hlt : 3 * 2^63 - p < 2^64 := by omega
    have hmod2 : (3 * 2^63 - p) % 2^64 = 3 * 2^63 - p := Nat.mod_eq_of_lt hlt
    rw [hmod2]
    have hbf : bits_float (3 * 2^63 - p) = p - 1 := by
      rw [bits_float_eq hlt, if_neg (by omega)]
      omega
    rw [hbf]
    refine ⟨by omega, ?_, ?_⟩
    · unfold fpIsNaN fpMag
      simp only [decide_eq_false_iff_not]
      omega
    · rw [skey_eq (by omega : p - 1 < 2^64), skey_eq hp, if_neg (by omega), if_neg (by omega)]
      omega

/-- Stepping one key down from a finite pattern other than `+0` lands on
the previous pattern: one less in signed-key order and never a NaN. -/
theorem fpprev_spec {p : Nat} (hp : p < 2^64) (hfin : fpIsFinite p = true)
    (hnz : p ≠ 0) :
    fpprev p < 2^64 ∧ fpIsNaN (fpprev p) = false ∧ skey (fpprev p) = skey p - 1 := by
  have hmag : fpMag p < pinfMag := by
    unfold fpIsFinite at hfin
    simpa using hfin
  have hpinf : pinfMag < 2^63 := by unfold pinfMag; omega
  unfold fpprev prev_k
  have hone : (1:Nat) % 2^64 = 1 := by norm_num
  rw [hone]
  rcases Nat.lt_or_ge p (2^63) with h1 | h1
  · have hmagp : fpMag p = p := by unfold fpMag; omega
    have hfb : float_bits p = p := by rw [float_bits_eq hp, if_pos h1]
    rw [hfb]
    have hmod : (p + (2^64 - 1)) % 2^64 = p - 1 := by
      have hsplit : p + (2^64 - 1) = (p - 1) + 1 * 2^64 := by omega
      rw [hsplit, Nat.add_mul_mod_self_right]
      exact Nat.mod_eq_of_lt (by omega)
    rw [hmod]
    have hbf : bits_float (p - 1) = p - 1 := by
      rw [bits_float_eq (by omega), if_pos (by omega)]
    rw [hbf]
    refine ⟨by omega, ?_, ?_⟩
    · unfold fpIsNaN fpMag
      simp only [decide_eq_false_iff_not]
      omega
    · rw [skey_eq (by omega : p - 1 < 2^64), skey_eq hp, if_pos (by omega), if_pos h1]
      omega
  · have hmagp : fpMag p = p - 2^63 := by unfold fpMag; omega
    have hfb : float_bits p = 3 * 2^63 - 1 - p := by
      rw [float_bits_eq hp, if_neg (by omega)]
    rw [hfb]
    have hmod : (3 * 2^63 - 1 - p + (2^64 - 1)) % 2^64 = 3 * 2^63 - 2 - p := by
      have hsplit : 3 * 2^63 - 1 - p + (2^64 - 1) = (3 * 2^63 - 2 - p) + 1 * 2^64 := by
        omega
      rw [hsplit, Nat.add_mul_mod_self_right]
      exact Nat.mod_eq_of_lt (by omega)
    rw [hmod]
    have hbf : bits_float (3 * 2^63 - 2 - p) = p + 1 := by
      rw [bits_float_eq (by omega), if_neg (by omega)]
      omega
    rw [hbf]
    refine ⟨by omega, ?_, ?_⟩
    · unfold fpIsNaN fpMag
      simp only [decide_eq_false_iff_not]
      unfold pinfMag at *
      omega
    · rw [skey_eq (by omega : p + 1 < 2^64), skey_eq hp, if_neg (by omega), if_neg (by omega)]
      omega

/-- A double strictly below `+0` is not `≥ 0`. -/
theorem dge_zero_false_of_dlt_zero {a : Nat} (h : dlt a 0 = true) : dge a 0 = false := by
  unfold dlt at h
  unfold dge dle
  simp only [Bool.and_eq_true, Bool.not_eq_true', decide_eq_true_eq] at h
  obtain ⟨⟨hna, _⟩, hlt⟩ := h
  have h0 : fpEval 0 = 0 := by decide
  have hn0 : fpIsNaN 0 = false := by decide
  simp only [hna, hn0, Bool.not_false, Bool.true_and, Bool.and_eq_false_iff,
    decide_eq_false_iff_not, h0] at *
  omega

/-- A double that is `≤ 0` but not `≥ 0` is strictly below `0`. -/
theorem dlt_zero_of_dle_zero_not_dge {a : Nat} (h1 : dle a 0 = true)
    (h2 : dge a 0 = false) : dlt a 0 = true := by
  unfold dle at h1
  unfold dge dle at h2
  unfold dlt
  have h0 : fpEval 0 = 0 := by decide
  have hn0 : fpIsNaN 0 = false := by decide
  simp only [Bool.and_eq_true, Bool.not_eq_true', decide_eq_true_eq] at h1
  obtain ⟨⟨hna, _⟩, hle⟩ := h1
  simp only [hna, hn0, Bool.not_false, Bool.true_and, Bool.and_eq_false_iff,
    decide_eq_false_iff_not, decide_eq_true_eq, h0] at h2 ⊢
  omega

/-- A double strictly above `+0` is not `≤ 0`. -/
theorem dle_zero_false_of_dlt_zero {a : Nat} (h : dlt 0 a = true) : dle a 0 = false := by
  unfold dlt at h
  unfold dle
  simp only [Bool.and_eq_true, Bool.not_eq_true', decide_eq_true_eq] at h
  obtain ⟨⟨_, hna⟩, hlt⟩ := h
  have h0 : fpEval 0 = 0 := by decide
  have hn0 : fpIsNaN 0 = false := by decide
  simp only [hna, hn0, Bool.not_false, Bool.true_and, Bool.and_eq_false_iff,
    decide_eq_false_iff_not, h0] at *
  omega

/-- Claim C6: `one_sided_ks_check_constants()` returns 0: the IEEE-754 bit
pattern of each of the five exported constants (the nearest binary64 to its
decimal literal) equals the hard-coded expected 64-bit pattern (`0`, and
the unsigned readings of `-4618953502541334032`, `-4616010731606004876`,
`-4612889074221922196`, `-4612889074221922196`). -/
theorem C6_check_constants : one_sided_ks_check_constants = 0 := by decide

/-- Claim C9: when both degenerate conditions hold at once — `n < min_count`
and `log_eps ≥ 0` — `one_sided_ks_threshold_fast` returns `+∞`: the
pre-warmup check takes precedence over the `-∞` degenerate-confidence
sentinel. -/
theorem C9_prewarmup_precedence (n min_count log_eps : Nat)
    (h1 : n < min_count) (h2 : dge log_eps 0 = true) :
    one_sided_ks_threshold_fast n min_count log_eps = hugePat := by
  unfold one_sided_ks_threshold_fast
  rw [if_pos h1]

/-- Witness for C9 at `n = 1 < 2 = min_count`, `log_eps = +0`. -/
theorem C9_witness :
    1 < 2 ∧ dge 0 0 = true ∧ one_sided_ks_threshold_fast 1 2 0 = hugePat :=
  ⟨by decide, by decide, C9_prewarmup_precedence 1 2 0 (by decide) (by decide)⟩

/-- Claim C10: for every `min_count` and `delta`,
`one_sided_ks_expected_iter` returns `0.0` whenever `log_eps ≥ 0`, before
any degenerate-input or validity sentinel is considered. -/
theorem C10_expected_iter_zero (min_count log_eps delta : Nat)
    (h : dge log_eps 0 = true) :
    one_sided_ks_expected_iter min_count log_eps delta = 0 := by
  unfold one_sided_ks_expected_iter
  rw [if_pos h]

/-- Witness for C10 at `min_count = 1`, `log_eps = +0`, `delta = 1.0`. -/
theorem C10_witness :
    dge 0 0 = true ∧ one_sided_ks_expected_iter 1 0 onePat = 0 :=
  ⟨by decide, C10_expected_iter_zero 1 0 onePat (by decide)⟩

/-- Claim C8: for `log_eps < 0`, `one_sided_ks_expected_iter` returns
`DBL_MAX` when `delta ≤ 0` or `min_count = 0`, and a negative value when
`min_count ≠ 0`, `delta > 0` and `min_count` is not valid for `log_eps`. -/
theorem C8_expected_iter_sentinels (min_count log_eps delta : Nat)
    (h : dlt log_eps 0 = true) :
    ((min_count = 0 ∨ dle delta 0 = true) →
      one_sided_ks_expected_iter min_count log_eps delta = dblMaxPat)
    ∧ (min_count ≠ 0 → dlt 0 delta = true →
        one_sided_ks_min_count_valid min_count log_eps = 0 →
        dlt (one_sided_ks_expected_iter min_count log_eps delta) 0 = true) := by
  have hge : dge log_eps 0 = false := dge_zero_false_of_dlt_zero h
  constructor
  · intro hcase
    unfold one_sided_ks_expected_iter
    rw [hge]
    simp only [Bool.false_eq_true, if_false]
    rw [if_pos hcase]
  · intro hm0 hdpos hvalid
    have hdle : dle delta 0 = false := dle_zero_false_of_dlt_zero hdpos
    unfold one_sided_ks_expected_iter
    rw [hge]
    simp only [Bool.false_eq_true, if_false]
    rw [if_neg (by simp [hm0, hdle]), if_pos hvalid]
    decide

/-- Witness for C8: at `(0, -1.0, 1.0)` the result is `DBL_MAX`; at
`(2, -1.0, 1.0)` the count `2` is invalid and the result is negative. -/
theorem C8_witness :
    dlt negOnePat 0 = true
    ∧ one_sided_ks_expected_iter 0 negOnePat onePat = dblMaxPat
    ∧ dlt (one_sided_ks_expected_iter 2 negOnePat onePat) 0 = true :=
  ⟨by decide,
   (C8_expected_iter_sentinels 0 negOnePat onePat (by decide)).1 (Or.inl rfl),
   (C8_expected_iter_sentinels 2 negOnePat onePat (by decide)).2
     (by decide) (by decide) (by decide)⟩

/-- Claim C5: for `log_eps ≤ 0` at call time, the safe entry point equals
the fast one with the `min_count` coerced: an invalid `min_count` is
replaced by `one_sided_ks_find_min_count log_eps`. -/
theorem C5_safe_coerces_min_count (n min_count log_eps : Nat)
    (h : dle log_eps 0 = true) :
    one_sided_ks_threshold n min_count log_eps
      = one_sided_ks_threshold_fast n
          (if one_sided_ks_min_count_valid min_count log_eps ≠ 0
           then min_count else one_sided_ks_find_min_count log_eps) log_eps := by
  unfold one_sided_ks_threshold
  by_cases hv : one_sided_ks_min_count_valid min_count log_eps = 0
  · rw [if_pos hv, if_neg (by omega)]
  · rw [if_neg hv, if_pos hv]

/-- Witness for C5 at `(n, min_count, log_eps) = (5, 2, -1.0)` (where
`min_count = 2` is invalid, so the coercion branch is exercised). -/
theorem C5_witness :
    dle negOnePat 0 = true
    ∧ one_sided_ks_threshold 5 2 negOnePat
        = one_sided_ks_threshold_fast 5
            (if one_sided_ks_min_count_valid 2 negOnePat ≠ 0
             then 2 else one_sided_ks_find_min_count negOnePat) negOnePat :=
  ⟨by decide, C5_safe_coerces_min_count 5 2 negOnePat (by decide)⟩

/-- Claim C2 (amended): for `log_eps ≤ 0` at call time, the value of
`one_sided_ks_threshold_fast` is finite only if `n ≥ min_count` and
`log_eps < 0`; it returns `+∞` whenever `n < min_count`, and `-∞` when
`n ≥ min_count` and `log_eps ≥ 0`.  (The converse of the finiteness
direction fails: for degenerate `min_count < 2` the result can be NaN
even when `n ≥ min_count` and `log_eps < 0`; see the counterexample.) -/
theorem C2_validity_gate (n min_count log_eps : Nat)
    (h : dle log_eps 0 = true) :
    (fpIsFinite (one_sided_ks_threshold_fast n min_count log_eps) = true →
      min_count ≤ n ∧ dlt log_eps 0 = true)
    ∧ (n < min_count → one_sided_ks_threshold_fast n min_count log_eps = hugePat)
    ∧ (min_count ≤ n → dge log_eps 0 = true →
        one_sided_ks_threshold_fast n min_count log_eps = negHugePat) := by
  unfold one_sided_ks_threshold_fast
  by_cases hnm : n < min_count
  · rw [if_pos hnm]
    refine ⟨?_, fun _ => rfl, ?_⟩
    · intro hfin
      exact absurd hfin (by decide)
    · intro hle _
      omega
  · rw [if_neg hnm]
    by_cases hge : dge log_eps 0 = true
    · rw [if_pos hge]
      refine ⟨?_, fun hc => absurd hc hnm, fun _ _ => rfl⟩
      intro hfin
      exact absurd hfin (by decide)
    · rw [if_neg hge]
      refine ⟨?_, fun hc => absurd hc hnm, fun _ hc => absurd hc hge⟩
      intro _
      exact ⟨by omega,
        dlt_zero_of_dle_zero_not_dge h (by revert hge; cases dge log_eps 0 <;> simp)⟩

/-- Counterexample refuting the original C2 biconditional: at
`(n, min_count, log_eps) = (3, 0, -1.0)` we have `n ≥ min_count` and
`log_eps < 0`, yet the result is not finite — `min_count = 0` makes the
kernel compute `log(-1.0) = NaN`, which propagates to the returned
threshold. -/
theorem C2_counterexample :
    dle negOnePat 0 = true ∧ dlt negOnePat 0 = true
    ∧ fpIsFinite (one_sided_ks_threshold_fast 3 0 negOnePat) = false := by
  refine ⟨by decide, by decide, by decide⟩

/-- Witness for the amended C2 at `(1, 2, -1.0)`: pre-warmup, so `+∞`. -/
theorem C2_witness :
    dle negOnePat 0 = true ∧ one_sided_ks_threshold_fast 1 2 negOnePat = hugePat :=
  ⟨by decide, (C2_validity_gate 1 2 negOnePat (by decide)).2.1 (by decide)⟩

/-- Invariant of the galloping loop: the returned index is the first
`i < 64` (from the start index on) whose power of two validates, or 64. -/
theorem gallopAux_spec (log_eps : Nat) :
    ∀ fuel i, 1 ≤ i → i ≤ 64 → 64 ≤ i + fuel →
      i ≤ gallopAux log_eps fuel i
      ∧ gallopAux log_eps fuel i ≤ 64
      ∧ (gallopAux log_eps fuel i < 64 →
          one_sided_ks_min_count_valid (2^(gallopAux log_eps fuel i)) log_eps ≠ 0)
      ∧ (∀ j, i ≤ j → j < gallopAux log_eps fuel i →
          one_sided_ks_min_count_valid (2^j) log_eps = 0) := by
  intro fuel
  induction fuel with
  | zero =>
    intro i h1 h2 h3
    unfold gallopAux
    exact ⟨Nat.le_refl _, h2, fun hc => absurd hc (by omega), fun j hj1 hj2 => by omega⟩
  | succ fuel ih =>
    intro i h1 h2 h3
    unfold gallopAux
    by_cases hc : 64 ≤ i
    · rw [if_pos hc]
      exact ⟨Nat.le_refl _, h2, fun hlt => absurd hlt (by omega), fun j hj1 hj2 => by omega⟩
    · rw [if_neg hc]
      by_cases hv : one_sided_ks_min_count_valid (2^i) log_eps ≠ 0
      · rw [if_pos hv]
        exact ⟨Nat.le_refl _, h2, fun _ => hv, fun j hj1 hj2 => by omega⟩
      · rw [if_neg hv]
        obtain ⟨g1, g2, g3, g4⟩ := ih (i+1) (by omega) (by omega) (by omega)
        refine ⟨by omega, g2, g3, fun j hj1 hj2 => ?_⟩
        rcases Nat.eq_or_lt_of_le hj1 with hj | hj
        · subst hj
          omega
        · exact g4 j (by omega) hj2

/-- Invariant of the bisection loop: starting from an invalid `low` and a
valid `high` with gap at most `2^fuel`, the result is a valid count whose
predecessor is invalid. -/
theorem bisectAux_spec (log_eps : Nat) :
    ∀ fuel low high, low < high → high - low ≤ 2^fuel →
      one_sided_ks_min_count_valid low log_eps = 0 →
      one_sided_ks_min_count_valid high log_eps ≠ 0 →
      low < bisectAux log_eps fuel low high
      ∧ bisectAux log_eps fuel low high ≤ high
      ∧ one_sided_ks_min_count_valid (bisectAux log_eps fuel low high) log_eps ≠ 0
      ∧ one_sided_ks_min_count_valid (bisectAux log_eps fuel low high - 1) log_eps = 0 := by
  intro fuel
  induction fuel with
  | zero =>
    intro low high h1 h2 h3 h4
    unfold bisectAux
    have hg : high = low + 1 := by simpa using by omega
    refine ⟨by omega, Nat.le_refl _, h4, ?_⟩
    rw [hg]
    simpa using h3
  | succ fuel ih =>
    intro low high h1 h2 h3 h4
    unfold bisectAux
    by_cases hc : low + 1 < high
    · rw [if_pos hc]
      have hpow : (2:Nat)^(fuel+1) = 2 * 2^fuel := by rw [pow_succ]; ring
      have hp1 : low < low + (high - low) / 2 := by omega
      have hp2 : low + (high - low) / 2 < high := by omega
      by_cases hv : one_sided_ks_min_count_valid (low + (high - low) / 2) log_eps ≠ 0
      · rw [if_pos hv]
        obtain ⟨g1, g2, g3, g4⟩ := ih low (low + (high - low) / 2) hp1 (by omega) h3 hv
        exact ⟨g1, by omega, g3, g4⟩
      · rw [if_neg hv]
        obtain ⟨g1, g2, g3, g4⟩ := ih (low + (high - low) / 2) high hp2 (by omega)
          (by omega) h4
        exact ⟨by omega, g2, g3, g4⟩
    · rw [if_neg hc]
      have hg : high = low + 1 := by omega
      refine ⟨by omega, Nat.le_refl _, h4, ?_⟩
      rw [hg]
      simpa using h3

/-- Claim C4 (amended): for every `log_eps < 0`, the count
`m* = one_sided_ks_find_min_count log_eps` satisfies
`min_count_valid m* ≠ 0` and `min_count_valid (m*-1) = 0`, unless
`m* ≤ 2` or `m* = 2^64 - 1` (`SIZE_MAX`, returned when no probed power
of two validates — in which case `m*` itself need not be valid). -/
theorem C4_find_min_count_tight (log_eps : Nat)
    (h : dlt log_eps 0 = true)
    (h2 : 2 < one_sided_ks_find_min_count log_eps)
    (h3 : one_sided_ks_find_min_count log_eps ≠ 2^64 - 1) :
    one_sided_ks_min_count_valid (one_sided_ks_find_min_count log_eps) log_eps ≠ 0
    ∧ one_sided_ks_min_count_valid (one_sided_ks_find_min_count log_eps - 1) log_eps = 0 := by
  have hge : dge log_eps 0 = false := dge_zero_false_of_dlt_zero h
  have hbody : one_sided_ks_find_min_count log_eps =
      (let i := gallopAux log_eps 64 1
       if i = 1 then 2
       else if 64 ≤ i then 2^64 - 1
       else bisectAux log_eps 64 (2^(i-1)) (2^i)) := by
    unfold one_sided_ks_find_min_count
    rw [hge]
    simp only [Bool.false_eq_true, if_false]
  rw [hbody] at h2 h3 ⊢
  obtain ⟨g1, g2, g3, g4⟩ := gallopAux_spec log_eps 64 1 (by omega) (by omega) (by omega)
  by_cases hi1 : gallopAux log_eps 64 1 = 1
  · rw [if_pos hi1] at h2
    omega
  · rw [if_neg hi1] at h2 h3 ⊢
    by_cases hi64 : 64 ≤ gallopAux log_eps 64 1
    · rw [if_pos hi64] at h3
      exact absurd rfl h3
    · rw [if_neg hi64] at h2 ⊢
      have hlow : one_sided_ks_min_count_valid (2^(gallopAux log_eps 64 1 - 1)) log_eps = 0 :=
        g4 (gallopAux log_eps 64 1 - 1) (by omega) (by omega)
      have hhigh : one_sided_ks_min_count_valid (2^(gallopAux log_eps 64 1)) log_eps ≠ 0 :=
        g3 (by omega)
      have hpows : (2:Nat)^(gallopAux log_eps 64 1) =
          2 * 2^(gallopAux log_eps 64 1 - 1) := by
        rw [← pow_succ']
        congr 1
        omega
      have hposlow : 1 ≤ (2:Nat)^(gallopAux log_eps 64 1 - 1) := Nat.one_le_two_pow
      obtain ⟨b1, b2, b3, b4⟩ := bisectAux_spec log_eps 64
        (2^(gallopAux log_eps 64 1 - 1)) (2^(gallopAux log_eps 64 1))
        (by omega)
        (by
          have hb : (2:Nat)^(gallopAux log_eps 64 1 - 1) ≤ 2^64 :=
            Nat.pow_le_pow_right (by norm_num) (by omega)
          omega)
        hlow hhigh
      exact ⟨b3, b4⟩

/-- Counterexample refuting the original C4: at `log_eps = -DBL_MAX` the
galloping search exhausts all probes, `find_min_count` returns
`SIZE_MAX = 2^64 - 1 > 2`, and that count is itself invalid. -/
theorem C4_counterexample :
    dlt (2^63 + dblMaxPat) 0 = true
    ∧ 2 < one_sided_ks_find_min_count (2^63 + dblMaxPat)
    ∧ one_sided_ks_min_count_valid
        (one_sided_ks_find_min_count (2^63 + dblMaxPat)) (2^63 + dblMaxPat) = 0 := by
  refine ⟨by decide, by decide, by decide⟩

/-- Witness for the amended C4 at `log_eps = -1.0`: the search returns 4,
which is valid while 3 is not. -/
theorem C4_witness :
    dlt negOnePat 0 = true
    ∧ 2 < one_sided_ks_find_min_count negOnePat
    ∧ one_sided_ks_find_min_count negOnePat ≠ 2^64 - 1
    ∧ one_sided_ks_min_count_valid (one_sided_ks_find_min_count negOnePat) negOnePat ≠ 0
    ∧ one_sided_ks_min_count_valid (one_sided_ks_find_min_count negOnePat - 1) negOnePat = 0 :=
  ⟨by decide, by decide, by decide,
   (C4_find_min_count_tight negOnePat (by decide) (by decide) (by decide)).1,
   (C4_find_min_count_tight negOnePat (by decide) (by decide) (by decide)).2⟩

/-- Claim C7: the bit encoding of doubles is self-inverse and
order-preserving.  `bits_float (float_bits b) = b` for every 64-bit
pattern; for every finite pattern other than `-0`, `next` (one key up) is
a non-NaN pattern strictly above it in value order and below or equal to
every non-NaN pattern strictly above it (i.e. the adjacent double
immediately above); dually for `prev` and patterns other than `+0`; and
the step from `-0` (pattern `2^63`) crosses to `+0` (pattern `0`) and
back, without discontinuity in value (both are worth `0`).  Value order
is integer order of `fpEval`, the exact value scaled by `2^1075` with
`±∞` mapped to sentinels `±2^2100`. -/
theorem C7_encoding_order :
    (∀ b, b < 2^64 → bits_float (float_bits b) = b)
    ∧ (∀ p, p < 2^64 → fpIsFinite p = true → p ≠ 2^63 →
        fpIsNaN (fpnext p) = false
        ∧ fpEval p < fpEval (fpnext p)
        ∧ ∀ q, q < 2^64 → fpIsNaN q = false → fpEval p < fpEval q →
            fpEval (fpnext p) ≤ fpEval q)
    ∧ (∀ p, p < 2^64 → fpIsFinite p = true → p ≠ 0 →
        fpIsNaN (fpprev p) = false
        ∧ fpEval (fpprev p) < fpEval p
        ∧ ∀ q, q < 2^64 → fpIsNaN q = false → fpEval q < fpEval p →
            fpEval q ≤ fpEval (fpprev p))
    ∧ fpnext (2^63) = 0 ∧ fpprev 0 = 2^63 := by
  refine ⟨?_, ?_, ?_, by decide, by decide⟩
  · intro b hb
    rw [float_bits_eq hb]
    rcases Nat.lt_or_ge b (2^63) with h1 | h1
    · rw [if_pos h1, bits_float_eq (by omega), if_pos h1]
    · rw [if_neg (by omega), bits_float_eq (by omega : 3 * 2^63 - 1 - b < 2^64),
        if_neg (by omega)]
      omega
  · intro p hp hfin hnz
    obtain ⟨hn1, hn2, hn3⟩ := fpnext_spec hp hfin hnz
    have hnp : fpIsNaN p = false := not_nan_of_finite hfin
    have hlt : fpEval p < fpEval (fpnext p) := by
      rcases eval_lt_of_skey_lt hp hn1 hnp hn2 (by omega) with hgood | hbad
      · exact hgood
      · exact absurd hbad.1 hnz
    refine ⟨hn2, hlt, fun q hq hnq hpq => ?_⟩
    have hk : skey p < skey q := skey_lt_of_eval_lt hp hq hnp hnq hpq
    rcases lt_or_eq_of_le (show skey (fpnext p) ≤ skey q by omega) with hlt2 | heq2
    · rcases eval_lt_of_skey_lt hn1 hq hn2 hnq hlt2 with hgood | hbad
      · exact le_of_lt hgood
      · have e1 : fpEval (2^63) = 0 := by decide
        have e2 : fpEval 0 = 0 := by decide
        rw [hbad.1, hbad.2, e1, e2]
    · rw [skey_inj hn1 hq heq2]
  · intro p hp hfin hnz
    obtain ⟨hn1, hn2, hn3⟩ := fpprev_spec hp hfin hnz
    have hnp : fpIsNaN p = false := not_nan_of_finite hfin
    have hlt : fpEval (fpprev p) < fpEval p := by
      rcases eval_lt_of_skey_lt hn1 hp hn2 hnp (by omega) with hgood | hbad
      · exact hgood
      · exact absurd hbad.2 hnz
    refine ⟨hn2, hlt, fun q hq hnq hpq => ?_⟩
    have hk : skey q < skey p := skey_lt_of_eval_lt hq hp hnq hnp hpq
    rcases lt_or_eq_of_le (show skey q ≤ skey (fpprev p) by omega) with hlt2 | heq2
    · rcases eval_lt_of_skey_lt hq hn1 hnq hn2 hlt2 with hgood | hbad
      · exact le_of_lt hgood
      · have e1 : fpEval (2^63) = 0 := by decide
        have e2 : fpEval 0 = 0 := by decide
        rw [hbad.1, hbad.2, e1, e2]
    · rw [skey_inj hq hn1 heq2]

/-- Witness for C7 at concrete patterns: round trip at 5, the step up from
`+0` (to the least positive subnormal, below `1.0`), and the step down
from `1.0`. -/
theorem C7_witness :
    bits_float (float_bits 5) = 5
    ∧ fpEval 0 < fpEval (fpnext 0)
    ∧ fpEval (fpnext 0) ≤ fpEval onePat
    ∧ fpEval (fpprev onePat) < fpEval onePat :=
  ⟨C7_encoding_order.1 5 (by decide),
   (C7_encoding_order.2.1 0 (by decide) (by decide) (by decide)).2.1,
   (C7_encoding_order.2.1 0 (by decide) (by decide) (by decide)).2.2 onePat
     (by decide) (by decide) (by decide),
   (C7_encoding_order.2.2.1 onePat (by decide) (by decide) (by decide)).2.1⟩
